import Mathlib

/-!
Verification of the UncertainSCI core (src/opolynd.py and src/pce.py) against its
natural-language specification.

Shallow embedding conventions:
* numpy float arrays become matrices of rationals (`Fin M → Fin N → ℚ`), i.e. the
  exact-arithmetic reading of the code;
* the external univariate orthogonal-polynomial family (`opoly1d`, spec section 6)
  is an abstract record of scalar functions;
* `np.sqrt` is abstracted by a function parameter `s : ℚ → ℚ`; theorems that need
  genuine square roots hypothesize `(s v)^2 = v` on the values actually used;
* Python exceptions become an `Except` error enumeration; `assert` failures and
  out-of-range numpy indexing are modeled as errors as well;
* the global numpy random stream is injected explicitly, as the spec (section 5)
  requires of a faithful reimplementation: each consumer receives the uniform
  draws it would have read from the stream.
-/

namespace UncertainSCI

/-- External univariate orthonormal polynomial family (spec section 6 contract):
scalar basis evaluation `eval(point, degree)` plus the exact (`idistinv`) and
fast approximate (`fidistinv`) inverse induced-distribution maps. The vectorized
numpy calls of the source apply these elementwise. -/
structure OrthogonalPolynomialBasis1D where
  eval : ℚ → ℕ → ℚ
  idistinv : ℚ → ℕ → ℚ
  fidistinv : ℚ → ℕ → ℚ

/-- opolynd.py `TensorialPolynomials`: either an isotropic tensorization (one
shared 1D family, field `iso1d`, used when `isotropic = true`) or an anisotropic
one (one family per dimension, field `aniso1d`, used when `isotropic = false`).
Exactly one of the two family fields is ever consulted, matching the
`self.isotropic` dispatch of the source. -/
structure TensorialPolynomials (dim : ℕ) where
  isotropic : Bool
  iso1d : OrthogonalPolynomialBasis1D
  aniso1d : Fin dim → OrthogonalPolynomialBasis1D

/-- The univariate family the source consults for dimension `k`. -/
def TensorialPolynomials.basisAt {dim : ℕ} (T : TensorialPolynomials dim)
    (k : Fin dim) : OrthogonalPolynomialBasis1D :=
  if T.isotropic then T.iso1d else T.aniso1d k

/-- Vectorized univariate evaluation `polys1d.eval(x[:,qd], lambdas[:,qd])`:
the M×N matrix of basis values at M points and N degrees. -/
def univEvalMat {M N : ℕ} (b : OrthogonalPolynomialBasis1D)
    (xs : Fin M → ℚ) (ds : Fin N → ℕ) : Fin M → Fin N → ℚ :=
  fun m n => b.eval (xs m) (ds n)

/-- Elementwise (numpy `*`) product of two M×N matrices. -/
def hadamard {M N : ℕ} (A B : Fin M → Fin N → ℚ) : Fin M → Fin N → ℚ :=
  fun m n => A m n * B m n

/-- `np.ones([M, N])`. -/
def onesMat (M N : ℕ) : Fin M → Fin N → ℚ := fun _ _ => 1

/-- Column `qd` of a matrix, `x[:,qd]`. -/
def column {M d : ℕ} {α : Type} (x : Fin M → Fin d → α) (qd : Fin d) :
    Fin M → α :=
  fun m => x m qd

/-- opolynd.py lines 58-83, `TensorialPolynomials.eval`: starting from
`np.ones([M,N])`, multiply elementwise by the univariate evaluation of each
dimension in turn (`for qd in range(self.dim)`), using the shared family in the
isotropic case and the per-dimension family otherwise. The source's
`assert d==d2==self.dim` is enforced by the types. -/
def TensorialPolynomials.eval {dim M N : ℕ} (T : TensorialPolynomials dim)
    (x : Fin M → Fin dim → ℚ) (lambdas : Fin N → Fin dim → ℕ) :
    Fin M → Fin N → ℚ :=
  if T.isotropic then
    (List.finRange dim).foldl
      (fun p qd => hadamard p (univEvalMat T.iso1d (column x qd) (column lambdas qd)))
      (onesMat M N)
  else
    (List.finRange dim).foldl
      (fun p qd => hadamard p (univEvalMat (T.aniso1d qd) (column x qd) (column lambdas qd)))
      (onesMat M N)

/-- opolynd.py lines 63-68: a length-d input (a 1-D numpy array) is reshaped to
a 1×d matrix and evaluated as such. -/
def TensorialPolynomials.evalVec {dim N : ℕ} (T : TensorialPolynomials dim)
    (x : Fin dim → ℚ) (lambdas : Fin N → Fin dim → ℕ) : Fin 1 → Fin N → ℚ :=
  T.eval (fun _ => x) lambdas

/-- opolynd.py lines 111-112: `ks = np.ceil(K * np.random.random(M)).astype(int)`
followed by the clamp `ks[np.where(ks > K)] = K`, for one uniform draw `u`. -/
def mixtureKs (K : ℕ) (u : ℚ) : ℤ :=
  let ks : ℤ := ⌈(K : ℚ) * u⌉
  if ks > (K : ℤ) then (K : ℤ) else ks

/-- The row index used by `Lambdas[ks-1, :]` (opolynd.py line 113). -/
def mixtureRowIndex (K : ℕ) (u : ℚ) : ℤ := mixtureKs K u - 1

/-- numpy integer row indexing: indices in `[0, K)` select directly, negative
indices in `[-K, 0)` wrap around from the end, anything else raises IndexError
(modeled by `none`). -/
def pythonRow {K d : ℕ} (Lambdas : Fin K → Fin d → ℕ) (i : ℤ) :
    Option (Fin d → ℕ) :=
  if h : 0 ≤ i ∧ i < (K : ℤ) then
    some (Lambdas ⟨i.toNat, by omega⟩)
  else if h2 : -(K : ℤ) ≤ i ∧ i < 0 then
    some (Lambdas ⟨(i + K).toNat, by omega⟩)
  else none

/-- The inverse induced-distribution map selected by `fast_sampler`
(opolynd.py lines 118-122 and 129-132). -/
def univInv (b : OrthogonalPolynomialBasis1D) (fast_sampler : Bool) :
    ℚ → ℕ → ℚ :=
  if fast_sampler then b.fidistinv else b.idistinv

/-- opolynd.py lines 85-136, `idist_mixture_sampling` with the uniform draws
injected: `u_sel m` is the draw that picks the mixture component of sample `m`
(line 111) and `u_pt m qd` the draw fed to the univariate inverse CDF for
sample `m`, dimension `qd` (lines 124 and 135). `none` models a failure of the
`assert M>0` or an out-of-range row lookup; `d == self.dim` is enforced by the
types. The isotropic branch applies the single family's inverse map elementwise
to the whole M×d uniform matrix, the anisotropic branch the per-dimension
family's map to each column. -/
def TensorialPolynomials.idist_mixture_sampling {dim K : ℕ}
    (T : TensorialPolynomials dim) (M : ℕ) (Lambdas : Fin K → Fin dim → ℕ)
    (fast_sampler : Bool) (u_sel : Fin M → ℚ) (u_pt : Fin M → Fin dim → ℚ) :
    Option (Fin M → Fin dim → ℚ) :=
  if M = 0 then none
  else if h : ∀ m : Fin M, (pythonRow Lambdas (mixtureRowIndex K (u_sel m))).isSome then
    if T.isotropic then
      some (fun m qd =>
        univInv T.iso1d fast_sampler (u_pt m qd)
          ((pythonRow Lambdas (mixtureRowIndex K (u_sel m))).get (h m) qd))
    else
      some (fun m qd =>
        univInv (T.aniso1d qd) fast_sampler (u_pt m qd)
          ((pythonRow Lambdas (mixtureRowIndex K (u_sel m))).get (h m) qd))
  else none

/-- Python exceptions raised (or, for `degenerateDesign`, merely named by the
spec's error taxonomy in section 7) across the two source files: `valueError`
covers the explicit `raise ValueError` sites, `notBuilt` the specific
ValueError raised by `assert_pce_built`, `assertionError` a failed `assert`
(including the dimension asserts of opolynd.py), `attributeError` an attribute
access on `None`, `indexError` out-of-range numpy indexing,
`zeroDivisionError` Python integer division by zero, `modelError` a failure of
the external model callback, and `solverError` a `np.linalg.lstsq` failure.
`degenerateDesign` is never produced by the code; it exists so that statements
about the spec's claimed zero-norm guard are expressible. -/
inductive PceError where
  | valueError
  | notBuilt
  | assertionError
  | attributeError
  | indexError
  | zeroDivisionError
  | modelError
  | solverError
  | degenerateDesign
  deriving DecidableEq

/-- `M = indices.shape[0] + oversampling`, the number of points WAFP returns
(opolynd.py line 145). -/
def wafpM (Nl oversampling : ℕ) : ℕ := Nl + oversampling

/-- Candidate pool size (opolynd.py lines 147-150): `M + 40` when `K` is not
given, else `max(K, M)`. -/
def wafpK (Nl oversampling : ℕ) (K : Option ℕ) : ℕ :=
  match K with
  | none => wafpM Nl oversampling + 40
  | some k => max k (wafpM Nl oversampling)

/-- `np.sum(V**2, axis=1)` for row `m`: the squared ℓ2 norm of a row of V. -/
def rowNormSq {M N : ℕ} (V : Fin M → Fin N → ℚ) (m : Fin M) : ℚ :=
  ∑ n, (V m n) ^ 2

/-- pce.py line 74 / opolynd.py line 160: `norms = 1/np.sqrt(np.sum(V**2,
axis=1))`, with `s` abstracting `np.sqrt`. No guard precedes the division:
a zero-norm row divides by zero (numpy emits inf/nan, no exception). -/
def rowNorms {M N : ℕ} (s : ℚ → ℚ) (V : Fin M → Fin N → ℚ) (m : Fin M) : ℚ :=
  1 / s (rowNormSq V m)

/-- `np.multiply(V.T, 1/np.sqrt(np.sum(V**2, axis=1))).T` (opolynd.py line 160,
pce.py line 75): scale each row of V by `norms`. -/
def rowNormalize {M N : ℕ} (s : ℚ → ℚ) (V : Fin M → Fin N → ℚ) :
    Fin M → Fin N → ℚ :=
  fun m n => V m n * rowNorms s V m

/-- Scale each row of a matrix by a per-row factor (`np.multiply(A.T, w).T`). -/
def scaleRows {M Q : ℕ} (w : Fin M → ℚ) (A : Fin M → Fin Q → ℚ) :
    Fin M → Fin Q → ℚ :=
  fun m q => A m q * w m

/-- opolynd.py lines 138-164, `wafp_sampling`. `greedy_d_optimal` lives in
`utils/linalg.py`, which is not part of src/; following the spec's section 4.2
contract (an ordered selection of row indices into V, modeled as `Fin`-valued
so the indices are valid by construction; the returned length enters theorems
as a hypothesis) it is passed in as the function argument `select`. The
uniform draws consumed by the candidate sampler are injected as in
`idist_mixture_sampling`. An unrecognized sampler string raises ValueError
(line 155); a failure inside the mixture sampler surfaces as its
assert/IndexError. -/
def TensorialPolynomials.wafp_sampling {dim Nl : ℕ} (T : TensorialPolynomials dim)
    (indices : Fin Nl → Fin dim → ℕ) (oversampling : ℕ) (sampler : String)
    (K : Option ℕ) (fast_sampler : Bool)
    (select : (Fin (wafpK Nl oversampling K) → Fin Nl → ℚ) → ℕ →
      List (Fin (wafpK Nl oversampling K)))
    (s : ℚ → ℚ)
    (u_sel : Fin (wafpK Nl oversampling K) → ℚ)
    (u_pt : Fin (wafpK Nl oversampling K) → Fin dim → ℚ) :
    Except PceError (List (Fin dim → ℚ)) :=
  let M := wafpM Nl oversampling
  if sampler = "idist" then
    match T.idist_mixture_sampling (wafpK Nl oversampling K) indices fast_sampler
        u_sel u_pt with
    | none => .error .assertionError
    | some x =>
      let V := T.eval x indices
      let Vn := rowNormalize s V
      let P := select Vn M
      .ok (P.map (fun i => x i))
  else .error .valueError

/-- A rational vector with run-time length (a 1-D numpy array). -/
structure RVec where
  len : ℕ
  entry : Fin len → ℚ

/-- A rational matrix with run-time shape (a 2-D numpy float array). -/
structure RMat where
  rows : ℕ
  cols : ℕ
  entry : Fin rows → Fin cols → ℚ

/-- An integer matrix with run-time shape (the N×d multi-index array). -/
structure NMat where
  rows : ℕ
  cols : ℕ
  entry : Fin rows → Fin cols → ℕ

/-- Total accessor for `RMat` (out-of-range reads return 0; every use is
guarded so the fallback is dead). -/
def RMat.atIdx (A : RMat) (i j : ℕ) : ℚ :=
  if h : i < A.rows ∧ j < A.cols then A.entry ⟨i, h.1⟩ ⟨j, h.2⟩ else 0

/-- Total column accessor for `NMat` (the numpy fancy-indexing sites guard the
column bound and raise IndexError otherwise, so the fallback is dead). -/
def NMat.natAt (A : NMat) (n : Fin A.rows) (c : ℕ) : ℕ :=
  if h : c < A.cols then A.entry n ⟨c, h⟩ else 0

/-- External `ProbabilityDistribution` capability set (spec section 6): a
dimension, a tensorial basis on it, the two invertible transform pairs
(`transform_to_standard`, `transform_standard_dist_to_poly`, each acting on
points), and an injected Monte-Carlo sample stream. -/
structure ProbabilityDistribution where
  dim : ℕ
  polys : TensorialPolynomials dim
  ts_map : (Fin dim → ℚ) → Fin dim → ℚ
  ts_mapinv : (Fin dim → ℚ) → Fin dim → ℚ
  tsdp_map : (Fin dim → ℚ) → Fin dim → ℚ
  tsdp_mapinv : (Fin dim → ℚ) → Fin dim → ℚ
  MC_samples : (M : ℕ) → Fin M → Fin dim → ℚ

/-- pce.py lines 58-59 (build with supplied physical samples):
`p_standard = transform_standard_dist_to_poly.map(transform_to_standard.map(p))`. -/
def ProbabilityDistribution.buildStandardize (dist : ProbabilityDistribution)
    (pt : Fin dist.dim → ℚ) : Fin dist.dim → ℚ :=
  dist.tsdp_map (dist.ts_map pt)

/-- pce.py lines 123-124 (`pce_eval`):
`p_std = transform_to_standard.map(transform_standard_dist_to_poly.map(p))` —
note the composition order is reversed relative to `buildStandardize`. -/
def ProbabilityDistribution.evalStandardize (dist : ProbabilityDistribution)
    (pt : Fin dist.dim → ℚ) : Fin dist.dim → ℚ :=
  dist.ts_map (dist.tsdp_map pt)

/-- pce.py lines 52-53 (build without samples): physical points from standard
ones, `p = transform_to_standard.mapinv(transform_standard_dist_to_poly.mapinv(p_standard))`. -/
def ProbabilityDistribution.unstandardize (dist : ProbabilityDistribution)
    (pt : Fin dist.dim → ℚ) : Fin dist.dim → ℚ :=
  dist.ts_mapinv (dist.tsdp_mapinv pt)

/-- The mutable attributes of `PolynomialChaosExpansion`: `indices` and
`distribution` are configured by the setters, while `coefficients`, `p` and
`output` are written only by `build_pce_wafp` (pce.py lines 83-85). -/
structure PceState where
  indices : Option NMat
  distribution : Option ProbabilityDistribution
  coefficients : Option RMat
  p : Option RMat
  output : Option RMat

/-- The model output for sample row m, `model(p[ind,:])` (pce.py lines 65/69),
with the row passed as a plain list of coordinates. -/
def modelRow {d Mp : ℕ} (model : List ℚ → Option (List ℚ))
    (pPhys : Fin Mp → Fin d → ℚ) (m : Fin Mp) : Option (List ℚ) :=
  model ((List.finRange d).map (pPhys m))

/-- pce.py lines 61-69: evaluate the external model at every physical sample
row; the output width Q is taken from the first row's result, and a later row
of a different size fails the numpy row assignment (`valueError`). A model
call returning `none` is a model evaluation failure; with zero rows `output`
stays `None` and line 76 raises on it (`attributeError`). -/
def evalModelRows {d : ℕ} (model : List ℚ → Option (List ℚ)) (Mp : ℕ)
    (pPhys : Fin Mp → Fin d → ℚ) :
    Except PceError ((Q : ℕ) × (Fin Mp → Fin Q → ℚ)) :=
  if hMp : Mp = 0 then .error .attributeError
  else
    if hok : ∀ m : Fin Mp, (modelRow model pPhys m).isSome then
      if hQ : ∀ m : Fin Mp, ((modelRow model pPhys m).get (hok m)).length
          = ((modelRow model pPhys ⟨0, Nat.pos_of_ne_zero hMp⟩).get
              (hok ⟨0, Nat.pos_of_ne_zero hMp⟩)).length then
        .ok ⟨((modelRow model pPhys ⟨0, Nat.pos_of_ne_zero hMp⟩).get
              (hok ⟨0, Nat.pos_of_ne_zero hMp⟩)).length,
          fun m q => ((modelRow model pPhys m).get (hok m)).get
            (Fin.cast (hQ m).symm q)⟩
      else .error .valueError
    else .error .modelError

/-- pce.py lines 76 and 85: the output rows are scaled by `norms` for the
solve and the stored `self.output` is the scaled matrix multiplied back by
`1/norms`. -/
def storedOutput {M N Q : ℕ} (s : ℚ → ℚ) (V : Fin M → Fin N → ℚ)
    (O : Fin M → Fin Q → ℚ) : Fin M → Fin Q → ℚ :=
  scaleRows (fun m => 1 / rowNorms s V m) (scaleRows (rowNorms s V) O)

/-- pce.py lines 61-87, the tail of `build_pce_wafp` shared by its two sample
branches: model evaluation, basis evaluation (whose `assert d==d2==self.dim`
is the `idx.cols = dist.dim` guard), row preconditioning, the least-squares
solve (`lstsq` abstracts `np.linalg.lstsq`; `none` is a solver failure), and
— only on success — the simultaneous assignment of `coefficients`, `p` and
`output` (lines 83-85). Every failure returns the untouched input state. -/
def buildSolveStep (model : List ℚ → Option (List ℚ)) (s : ℚ → ℚ)
    (lstsq : (M N Q : ℕ) → (Fin M → Fin N → ℚ) → (Fin M → Fin Q → ℚ) →
      Option ((Fin N → Fin Q → ℚ) × List ℚ))
    (st : PceState) (idx : NMat) (dist : ProbabilityDistribution)
    (Mp : ℕ) (pPhys pStd : Fin Mp → Fin dist.dim → ℚ) :
    PceState × Except PceError (List ℚ) :=
  match evalModelRows model Mp pPhys with
  | .error e => (st, .error e)
  | .ok QO =>
    if hd2 : idx.cols = dist.dim then
      match lstsq Mp idx.rows QO.1
          (rowNormalize s
            (dist.polys.eval pStd (fun n k => idx.entry n (Fin.cast hd2.symm k))))
          (scaleRows
            (rowNorms s
              (dist.polys.eval pStd (fun n k => idx.entry n (Fin.cast hd2.symm k))))
            QO.2) with
      | none => (st, .error .solverError)
      | some cr =>
        ({ st with
            coefficients := some ⟨idx.rows, QO.1, cr.1⟩
            p := some ⟨Mp, dist.dim, pPhys⟩
            output := some ⟨Mp, QO.1,
              storedOutput s
                (dist.polys.eval pStd (fun n k => idx.entry n (Fin.cast hd2.symm k)))
                QO.2⟩ },
          .ok cr.2)
    else (st, .error .assertionError)

/-- pce.py lines 29-87, `build_pce_wafp`. Unset `indices` or `distribution`
raise ValueError (lines 42-45). Without samples, standard-domain points come
from `wafp_sampling` (whose injected uniform stream and spec-modeled `select`
are threaded through) and are mapped to the physical domain by
`unstandardize`; with samples, a wrong sample dimension raises ValueError
(lines 56-57) and the points are standardized by `buildStandardize`. The rest
is `buildSolveStep`. -/
def build_pce_wafp (model : List ℚ → Option (List ℚ)) (samples : Option RMat)
    (oversampling : ℕ) (sampler : String) (Kopt : Option ℕ) (fast_sampler : Bool)
    (select : (Kp Nl : ℕ) → (Fin Kp → Fin Nl → ℚ) → ℕ → List (Fin Kp))
    (s : ℚ → ℚ)
    (lstsq : (M N Q : ℕ) → (Fin M → Fin N → ℚ) → (Fin M → Fin Q → ℚ) →
      Option ((Fin N → Fin Q → ℚ) × List ℚ))
    (u_sel : ℕ → ℚ) (u_pt : ℕ → ℕ → ℚ)
    (st : PceState) : PceState × Except PceError (List ℚ) :=
  match st.indices with
  | none => (st, .error .valueError)
  | some idx =>
  match st.distribution with
  | none => (st, .error .valueError)
  | some dist =>
  match samples with
  | none =>
    if hd : idx.cols = dist.dim then
      match dist.polys.wafp_sampling (fun n k => idx.entry n (Fin.cast hd.symm k))
          oversampling sampler Kopt fast_sampler
          (select (wafpK idx.rows oversampling Kopt) idx.rows)
          s (fun i => u_sel i.val) (fun i k => u_pt i.val k.val) with
      | .error e => (st, .error e)
      | .ok pstd =>
        buildSolveStep model s lstsq st idx dist pstd.length
          (fun m => dist.unstandardize (pstd.get m))
          (fun m => pstd.get m)
    else (st, .error .assertionError)
  | some ps =>
    if ps.cols = idx.cols then
      if hpd : ps.cols = dist.dim then
        buildSolveStep model s lstsq st idx dist ps.rows
          (fun m k => ps.entry m (Fin.cast hpd.symm k))
          (fun m => dist.buildStandardize (fun k => ps.entry m (Fin.cast hpd.symm k)))
      else (st, .error .assertionError)
    else (st, .error .valueError)

/-- pce.py lines 97-99: raise (`notBuilt`) if `self.coefficients is None`. -/
def assert_pce_built (st : PceState) : Except PceError Unit :=
  match st.coefficients with
  | none => .error .notBuilt
  | some _ => .ok ()

/-- pce.py lines 101-107, `mean`: guard, then `self.coefficients[0,:]`
(IndexError on an empty coefficient matrix). -/
def PceState.mean (st : PceState) : Except PceError RVec :=
  match assert_pce_built st with
  | .error e => .error e
  | .ok _ =>
  match st.coefficients with
  | none => .error .notBuilt
  | some C =>
    if h : 0 < C.rows then .ok ⟨C.cols, fun q => C.entry ⟨0, h⟩ q⟩
    else .error .indexError

/-- pce.py lines 109-115, `stdev`: guard, then
`np.sqrt(np.sum(self.coefficients[1:,:]**2, axis=0))`, with `s` abstracting
`np.sqrt`. -/
def PceState.stdev (st : PceState) (s : ℚ → ℚ) : Except PceError RVec :=
  match assert_pce_built st with
  | .error e => .error e
  | .ok _ =>
  match st.coefficients with
  | none => .error .notBuilt
  | some C =>
    .ok ⟨C.cols, fun q =>
      s (∑ m : Fin C.rows, if 1 ≤ m.val then (C.entry m q) ^ 2 else 0)⟩

/-- pce.py lines 117-129, `pce_eval`: guard, standardize `p` via
`evalStandardize`, evaluate the basis at the configured indices (the eval
assert is the `idx.cols = dist.dim` guard) and take the dot product with the
coefficients, optionally restricted to the listed output components
(IndexError on an out-of-range component). -/
def PceState.pce_eval (st : PceState) (p : RMat) (components : Option (List ℕ)) :
    Except PceError RMat :=
  match assert_pce_built st with
  | .error e => .error e
  | .ok _ =>
  match st.distribution with
  | none => .error .attributeError
  | some dist =>
  if hp : p.cols = dist.dim then
    let pStd : Fin p.rows → Fin dist.dim → ℚ :=
      fun m => dist.evalStandardize (fun k => p.entry m (Fin.cast hp.symm k))
    match st.indices with
    | none => .error .attributeError
    | some idx =>
    if hd : idx.cols = dist.dim then
      let V := dist.polys.eval pStd (fun n k => idx.entry n (Fin.cast hd.symm k))
      match st.coefficients with
      | none => .error .notBuilt
      | some C =>
      if hr : C.rows = idx.rows then
        match components with
        | none =>
          .ok ⟨p.rows, C.cols, fun m q =>
            ∑ n : Fin idx.rows, V m n * C.entry (Fin.cast hr.symm n) q⟩
        | some comps =>
          if hc : ∀ c ∈ comps, c < C.cols then
            .ok ⟨p.rows, comps.length, fun m j =>
              ∑ n : Fin idx.rows,
                V m n * C.entry (Fin.cast hr.symm n)
                  ⟨comps.get j, hc (comps.get j) (List.get_mem comps j.1 j.2)⟩⟩
          else .error .indexError
      else .error .valueError
    else .error .assertionError
  else .error .assertionError

/-- pce.py lines 139-142: `MF = max([int(1e6), M, self.distribution.dim])`
and `pce_batch_size = floor(MF/M)`. -/
def pce_batch_size (M dimv : ℕ) : ℕ := max (max 1000000 M) dimv / M

/-- The `(pce_counter, end_ind)` intervals traversed by the while loop of
`quantile` (pce.py lines 149-156), with explicit fuel; `none` means the fuel
ran out before `pce_counter` reached Q (which the batching theorem rules out
for a positive batch size). -/
def batchIntervals (Q bs : ℕ) : ℕ → ℕ → Option (List (ℕ × ℕ))
  | 0, counter => if Q ≤ counter then some [] else none
  | fuel + 1, counter =>
    if Q ≤ counter then some []
    else
      match batchIntervals Q bs fuel (min Q (counter + bs)) with
      | none => none
      | some rest => some ((counter, min Q (counter + bs)) :: rest)

/-- First error produced by a batch evaluation, if any. -/
def exceptErr? {α : Type} (e : Except PceError α) : Option PceError :=
  match e with
  | .error err => some err
  | .ok _ => none

/-- pce.py lines 131-158, `quantile`: guard, Monte-Carlo draw from the
distribution's injected stream, then batched evaluation of the expansion —
`npquantile` abstracts `np.quantile(ensemble, q, axis=0)` — writing
`quantiles[:, inds]` batch by batch. `M = 0` makes `floor(MF/M)` raise
ZeroDivisionError in Python and is modeled as that error. -/
def PceState.quantile (st : PceState) (q : List ℚ) (M : ℕ)
    (npquantile : RMat → List ℚ → RMat) : Except PceError RMat :=
  match assert_pce_built st with
  | .error e => .error e
  | .ok _ =>
  match st.distribution with
  | none => .error .attributeError
  | some dist =>
  if M = 0 then .error .zeroDivisionError
  else
  match st.coefficients with
  | none => .error .notBuilt
  | some C =>
    match batchIntervals C.cols (pce_batch_size M dist.dim) C.cols 0 with
    | none => .error .valueError
    | some batches =>
      match batches.findSome? (fun b =>
          exceptErr? (st.pce_eval ⟨M, dist.dim, dist.MC_samples M⟩
            (some (List.range' b.1 (b.2 - b.1))))) with
      | some e => .error e
      | none =>
        .ok ⟨q.length, C.cols, fun i j =>
          match batches.find? (fun b => decide (b.1 ≤ j.val) && decide (j.val < b.2)) with
          | none => 0
          | some b =>
            match st.pce_eval ⟨M, dist.dim, dist.MC_samples M⟩
                (some (List.range' b.1 (b.2 - b.1))) with
            | .error _ => 0
            | .ok ens => (npquantile ens q).atIdx i.val (j.val - b.1)⟩

/-- pce.py lines 160-186, `total_sensitivity`: guard, default dimension list
`range(self.distribution.dim)`, and for each requested dimension j the sum of
squared coefficients over multi-indices positive in dimension j, divided by
`stdev()**2`. -/
def PceState.total_sensitivity (st : PceState) (s : ℚ → ℚ)
    (dim_indices : Option (List ℕ)) : Except PceError RMat :=
  match assert_pce_built st with
  | .error e => .error e
  | .ok _ =>
  match st.distribution with
  | none => .error .attributeError
  | some dist =>
  let dims := match dim_indices with
    | none => List.range dist.dim
    | some l => l
  match st.indices with
  | none => .error .attributeError
  | some idx =>
  match st.stdev s with
  | .error e => .error e
  | .ok sd =>
  match st.coefficients with
  | none => .error .notBuilt
  | some C =>
  if hr : C.rows = idx.rows then
    if hq : sd.len = C.cols then
      if ∀ c ∈ dims, c < idx.cols then
        .ok ⟨dims.length, C.cols, fun qj q =>
          (∑ n : Fin idx.rows,
            if 0 < idx.natAt n (dims.get qj) then
              (C.entry (Fin.cast hr.symm n) q) ^ 2
            else 0)
            / (sd.entry (Fin.cast hq.symm q)) ^ 2⟩
      else .error .indexError
    else .error .valueError
  else .error .valueError

/-- pce.py lines 188-215, `global_sensitivity`. Unlike every other accessor it
does NOT call `assert_pce_built`: it reads `self.indices.indices()` first
(AttributeError if indices were never set), and only fails on an unbuilt
expansion when the `variance = self.stdev()**2` line (206) runs the guard
inside `stdev`. For each dimension group j it sums squared coefficients over
rows positive on all of j (`np.all(indices[:,j] > 0, axis=1)`) and zero on the
complement `np.setdiff1d(range(dim), j)`, divided by the variance. -/
def PceState.global_sensitivity (st : PceState) (s : ℚ → ℚ)
    (dim_lists : List (List ℕ)) : Except PceError RMat :=
  match st.indices with
  | none => .error .attributeError
  | some idx =>
  match st.stdev s with
  | .error e => .error e
  | .ok sd =>
  match st.distribution with
  | none => .error .attributeError
  | some dist =>
  match st.coefficients with
  | none => .error .notBuilt
  | some C =>
  if hr : C.rows = idx.rows then
    if hq : sd.len = C.cols then
      if ∀ g ∈ dim_lists, ∀ c ∈ g, c < idx.cols then
        .ok ⟨dim_lists.length, C.cols, fun gj q =>
          (∑ n : Fin idx.rows,
            if ((dim_lists.get gj).all fun c => decide (0 < idx.natAt n c))
                && (((List.range dist.dim).filter
                      (fun c => decide (c ∉ dim_lists.get gj))).all
                    fun c => decide (idx.natAt n c = 0)) then
              (C.entry (Fin.cast hr.symm n) q) ^ 2
            else 0)
            / (sd.entry (Fin.cast hq.symm q)) ^ 2⟩
      else .error .indexError
    else .error .valueError
  else .error .valueError

/-! ## Concrete instances used in witnesses and counterexamples -/

/-- A trivial univariate family: constant basis value 1, identity inverse maps. -/
def witBasis : OrthogonalPolynomialBasis1D :=
  ⟨fun _ _ => 1, fun u _ => u, fun u _ => u⟩

/-- A degenerate univariate family whose basis vanishes identically, producing
zero-norm rows in V. -/
def zeroBasis : OrthogonalPolynomialBasis1D :=
  ⟨fun _ _ => 0, fun u _ => u, fun u _ => u⟩

/-- One-dimensional isotropic tensorization of `witBasis`. -/
def witPolys : TensorialPolynomials 1 := ⟨true, witBasis, fun _ => witBasis⟩

/-- One-dimensional isotropic tensorization of `zeroBasis`. -/
def zeroPolys : TensorialPolynomials 1 := ⟨true, zeroBasis, fun _ => zeroBasis⟩

/-- The 1×1 multi-index matrix [[0]] as a function. -/
def witIdx1 : Fin 1 → Fin 1 → ℕ := fun _ _ => 0

/-- A selection rule of the spec-4.2 shape for a pool of `wafpK 1 0 (some 1)`
candidates: always pick the first row. -/
def selectFirst1 :
    (Fin (wafpK 1 0 (some 1)) → Fin 1 → ℚ) → ℕ → List (Fin (wafpK 1 0 (some 1))) :=
  fun _ k => List.replicate k ⟨0, by decide⟩

/-- A freshly constructed `PolynomialChaosExpansion()`: nothing set. -/
def freshState : PceState := ⟨none, none, none, none, none⟩

/-- A 1×2 matrix with row (3,4), of squared row norm 25. -/
def rowVWit : Fin 1 → Fin 2 → ℚ := fun _ n => if n.val = 0 then 3 else 4

/-- A stand-in for np.sqrt that is exact on the value 25. -/
def sqrtWit : ℚ → ℚ := fun v => if v = 25 then 5 else 0

/-- A distribution with non-commuting transform maps: `transform_to_standard`
adds 1 to each coordinate, `transform_standard_dist_to_poly` doubles it. -/
def chainDist : ProbabilityDistribution where
  dim := 1
  polys := ⟨true, witBasis, fun _ => witBasis⟩
  ts_map := fun pt k => pt k + 1
  ts_mapinv := fun pt k => pt k - 1
  tsdp_map := fun pt k => 2 * pt k
  tsdp_mapinv := fun pt k => pt k / 2
  MC_samples := fun _ _ _ => 0

/-- A 2×2 multi-index set with rows (0,0) and (1,0). -/
def sensIdx : NMat :=
  ⟨2, 2, fun n k => if n.val = 0 then 0 else if k.val = 0 then 1 else 0⟩

/-- A 2×1 coefficient matrix with entries 3 (constant row) and 2. -/
def sensC : RMat := ⟨2, 1, fun n _ => if n.val = 0 then 3 else 2⟩

/-- A two-dimensional distribution with identity transforms. -/
def sensDist : ProbabilityDistribution where
  dim := 2
  polys := ⟨true, witBasis, fun _ => witBasis⟩
  ts_map := fun pt => pt
  ts_mapinv := fun pt => pt
  tsdp_map := fun pt => pt
  tsdp_mapinv := fun pt => pt
  MC_samples := fun _ _ _ => 0

/-- A built expansion over `sensIdx`, `sensDist`, `sensC`. -/
def sensState : PceState :=
  ⟨some sensIdx, some sensDist, some sensC, none, none⟩

/-- A 3×1 multi-index matrix with rows 0, 1, 2. -/
def mixLam3 : Fin 3 → Fin 1 → ℕ := fun k _ => k.val

/-- The all-ones 1×1 matrix. -/
def onesV1 : Fin 1 → Fin 1 → ℚ := fun _ _ => 1

/-- The constant-5 1×1 output matrix. -/
def fivesO1 : Fin 1 → Fin 1 → ℚ := fun _ _ => 5

/-! ## Theorems -/

/-- C1 helper: entries of a fold of elementwise products. -/
theorem foldl_hadamard_apply {M N : ℕ} {α : Type} (F : α → Fin M → Fin N → ℚ)
    (l : List α) (A : Fin M → Fin N → ℚ) (m : Fin M) (n : Fin N) :
    (l.foldl (fun acc qd => hadamard acc (F qd)) A) m n
      = A m n * (l.map (fun k => F k m n)).prod := by
  induction l generalizing A with
  | nil => simp
  | cons a t ih =>
    simp only [List.foldl_cons, List.map_cons, List.prod_cons, ih, hadamard]
    ring

/-- C1: for an M×d input x (and likewise for a length-d vector, auto-reshaped
to 1×d) and an N×d multi-index matrix Λ with d the configured dimension,
`TensorialPolynomials.eval` returns the M×N matrix whose (m,n) entry is the
product over dimensions k of the k-th univariate basis at (x[m,k], Λ[n,k]);
`basisAt` is the shared family for every k when isotropic and the per-dimension
family otherwise. -/
theorem tensorial_eval_factorizes {dim M N : ℕ} (T : TensorialPolynomials dim)
    (x : Fin M → Fin dim → ℚ) (v : Fin dim → ℚ) (lambdas : Fin N → Fin dim → ℕ)
    (m : Fin M) (n : Fin N) (i : Fin 1) :
    T.eval x lambdas m n = ∏ k, (T.basisAt k).eval (x m k) (lambdas n k)
      ∧ T.evalVec v lambdas i n = ∏ k, (T.basisAt k).eval (v k) (lambdas n k) := by
  have key : ∀ (M' : ℕ) (x' : Fin M' → Fin dim → ℚ) (m' : Fin M'),
      T.eval x' lambdas m' n = ∏ k, (T.basisAt k).eval (x' m' k) (lambdas n k) := by
    intro M' x' m'
    unfold TensorialPolynomials.eval
    by_cases h : T.isotropic
    · rw [if_pos h, foldl_hadamard_apply, Fin.prod_univ_def]
      simp [onesMat, univEvalMat, column, TensorialPolynomials.basisAt, h]
    · rw [if_neg h, foldl_hadamard_apply, Fin.prod_univ_def]
      simp [onesMat, univEvalMat, column, TensorialPolynomials.basisAt, h]
  exact ⟨key M x m, key 1 (fun _ => v) i⟩

/-- C9 helper: for `u` in `[0,1)` and `K ≥ 1` the clamped index lies in
`[-1, K-1]`, so the numpy row lookup succeeds. -/
theorem mixtureRowIndex_bounds {K : ℕ} (hK : 0 < K) {u : ℚ}
    (h0 : 0 ≤ u) (h1 : u < 1) :
    -1 ≤ mixtureRowIndex K u ∧ mixtureRowIndex K u < (K : ℤ) := by
  unfold mixtureRowIndex mixtureKs
  have hceil0 : (0 : ℤ) ≤ ⌈(K : ℚ) * u⌉ :=
    Int.ceil_nonneg (mul_nonneg (by positivity) h0)
  have hceilK : ⌈(K : ℚ) * u⌉ ≤ (K : ℤ) := by
    rw [Int.ceil_le]
    push_cast
    nlinarith
  simp only []
  split
  · omega
  · omega

/-- C9 helper: row lookup at an index in `[-1, K-1]` succeeds. -/
theorem pythonRow_isSome {K d : ℕ} (hK : 0 < K) (Lambdas : Fin K → Fin d → ℕ)
    {i : ℤ} (hlo : -1 ≤ i) (hhi : i < (K : ℤ)) :
    (pythonRow Lambdas i).isSome := by
  unfold pythonRow
  split
  · simp
  · split
    · simp
    · omega

/-- C9: for K ≥ 1 mixture components and any uniform draw u in `[0,1)`, the
component index computed by `idist_mixture_sampling` — ceil(K·u), clamped to at
most K, minus one — is a valid numpy row index of Λ, so sampling succeeds (no
out-of-bounds lookup); at u = 0 the index is −1, which numpy resolves to the
last row of Λ rather than the first. -/
theorem mixture_sampling_index_safe {dim K : ℕ} (T : TensorialPolynomials dim)
    (M : ℕ) (Lambdas : Fin K → Fin dim → ℕ) (fast_sampler : Bool)
    (u_sel : Fin M → ℚ) (u_pt : Fin M → Fin dim → ℚ)
    (hK : 0 < K) (hM : 0 < M)
    (hu : ∀ m, 0 ≤ u_sel m ∧ u_sel m < 1) :
    (T.idist_mixture_sampling M Lambdas fast_sampler u_sel u_pt).isSome
      ∧ (∀ u : ℚ, 0 ≤ u → u < 1 →
          (pythonRow Lambdas (mixtureRowIndex K u)).isSome)
      ∧ mixtureRowIndex K 0 = -1
      ∧ pythonRow Lambdas (mixtureRowIndex K 0) = some (Lambdas ⟨K - 1, by omega⟩) := by
  have hsafe : ∀ u : ℚ, 0 ≤ u → u < 1 →
      (pythonRow Lambdas (mixtureRowIndex K u)).isSome := by
    intro u h0 h1
    obtain ⟨hlo, hhi⟩ := mixtureRowIndex_bounds hK h0 h1
    exact pythonRow_isSome hK Lambdas hlo hhi
  have hzero : mixtureRowIndex K 0 = -1 := by
    unfold mixtureRowIndex mixtureKs
    simp
  refine ⟨?_, hsafe, hzero, ?_⟩
  · unfold TensorialPolynomials.idist_mixture_sampling
    have hM0 : ¬ (M = 0) := by omega
    have hall : ∀ m : Fin M,
        (pythonRow Lambdas (mixtureRowIndex K (u_sel m))).isSome := by
      intro m
      exact hsafe (u_sel m) (hu m).1 (hu m).2
    rw [if_neg hM0, dif_pos hall]
    split <;> simp
  · rw [hzero]
    unfold pythonRow
    rw [dif_neg (by omega), dif_pos (by constructor <;> omega)]
    congr 1
    apply congrArg
    apply Fin.ext
    simp only [Fin.val_mk]
    omega

/-- C3 helper: the candidate pool is never empty. -/
theorem wafpK_pos {Nl oversampling : ℕ} (hNl : 0 < Nl) (Kopt : Option ℕ) :
    0 < wafpK Nl oversampling Kopt := by
  match Kopt with
  | none =>
    show 0 < Nl + oversampling + 40
    omega
  | some k =>
    show 0 < max k (Nl + oversampling)
    exact lt_of_lt_of_le (by omega) (le_max_right k (Nl + oversampling))

/-- C3 helper: with a nonempty index set and in-range uniform draws, the
mixture sampler succeeds and returns its sample matrix. -/
theorem mixture_isSome_of_inrange {dim K Nl : ℕ} (T : TensorialPolynomials dim)
    (indices : Fin Nl → Fin dim → ℕ) (u_sel : Fin K → ℚ)
    (u_pt : Fin K → Fin dim → ℚ) (fast_sampler : Bool)
    (hNl : 0 < Nl) (hK : 0 < K)
    (hu : ∀ m, 0 ≤ u_sel m ∧ u_sel m < 1) :
    (T.idist_mixture_sampling K indices fast_sampler u_sel u_pt).isSome := by
  unfold TensorialPolynomials.idist_mixture_sampling
  rw [if_neg (by omega)]
  have hall : ∀ m : Fin K,
      (pythonRow indices (mixtureRowIndex Nl (u_sel m))).isSome := by
    intro m
    obtain ⟨hlo, hhi⟩ := mixtureRowIndex_bounds hNl (hu m).1 (hu m).2
    exact pythonRow_isSome hNl indices hlo hhi
  rw [dif_pos hall]
  split <;> simp

/-- C3: for a nonempty multi-index set Λ (N_Λ rows), any oversampling ≥ 0 and
in-range uniform draws, `wafp_sampling` with the `idist` sampler succeeds and
returns exactly the candidate rows selected by the greedy step, in selection
order — hence exactly N_Λ + oversampling rows whenever `select` honors its
spec-4.2 contract of returning that many indices — and when the candidate
pool size K is not given the pool drawn has N_Λ + oversampling + 40 points. -/
theorem wafp_sampling_rows {dim Nl : ℕ} (T : TensorialPolynomials dim)
    (indices : Fin Nl → Fin dim → ℕ) (oversampling : ℕ) (Kopt : Option ℕ)
    (fast_sampler : Bool)
    (select : (Fin (wafpK Nl oversampling Kopt) → Fin Nl → ℚ) → ℕ →
      List (Fin (wafpK Nl oversampling Kopt)))
    (s : ℚ → ℚ) (u_sel : Fin (wafpK Nl oversampling Kopt) → ℚ)
    (u_pt : Fin (wafpK Nl oversampling Kopt) → Fin dim → ℚ)
    (hNl : 0 < Nl)
    (hu : ∀ m, 0 ≤ u_sel m ∧ u_sel m < 1)
    (hsel : ∀ Vn, (select Vn (wafpM Nl oversampling)).length = wafpM Nl oversampling) :
    (∃ x, T.idist_mixture_sampling (wafpK Nl oversampling Kopt) indices fast_sampler
          u_sel u_pt = some x
      ∧ T.wafp_sampling indices oversampling "idist" Kopt fast_sampler select s u_sel u_pt
          = .ok ((select (rowNormalize s (T.eval x indices)) (wafpM Nl oversampling)).map
              (fun i => x i))
      ∧ (∀ pts, T.wafp_sampling indices oversampling "idist" Kopt fast_sampler select s
            u_sel u_pt = .ok pts → pts.length = Nl + oversampling))
    ∧ wafpK Nl oversampling none = Nl + oversampling + 40 := by
  have hK := @wafpK_pos Nl oversampling hNl Kopt
  have hmix := mixture_isSome_of_inrange T indices u_sel u_pt fast_sampler hNl hK hu
  obtain ⟨x, hx⟩ := Option.isSome_iff_exists.mp hmix
  have heq : T.wafp_sampling indices oversampling "idist" Kopt fast_sampler select s u_sel u_pt
      = .ok ((select (rowNormalize s (T.eval x indices)) (wafpM Nl oversampling)).map
          (fun i => x i)) := by
    unfold TensorialPolynomials.wafp_sampling
    rw [if_pos rfl, hx]
  refine ⟨⟨x, hx, heq, ?_⟩, rfl⟩
  intro pts hpts
  rw [heq] at hpts
  cases hpts
  rw [List.length_map, hsel]
  rfl

/-- C3 witness: a concrete one-point instance. -/
theorem wafp_sampling_rows_witness :
    ∃ pts, witPolys.wafp_sampling witIdx1 0 "idist" (some 1) true selectFirst1
        (fun v => v) (fun _ => 0) (fun _ _ => 0) = .ok pts ∧ pts.length = 1 := by
  obtain ⟨⟨x, _, heq, hlen⟩, _⟩ :=
    wafp_sampling_rows witPolys witIdx1 0 (some 1) true selectFirst1
      (fun v => v) (fun _ => 0) (fun _ _ => 0) (by decide)
      (fun m => by constructor <;> norm_num)
      (fun Vn => by simp [selectFirst1])
  exact ⟨_, heq, hlen _ heq⟩

/-- C4 helper: `wafp_sampling` has no DegenerateDesign branch: its only
errors are the unrecognized-sampler ValueError and the mixture sampler's
assert failure. -/
theorem wafp_sampling_no_degenerateDesign {dim Nl : ℕ}
    (T : TensorialPolynomials dim) (indices : Fin Nl → Fin dim → ℕ)
    (oversampling : ℕ) (sampler : String) (Kopt : Option ℕ) (fast_sampler : Bool)
    (select : (Fin (wafpK Nl oversampling Kopt) → Fin Nl → ℚ) → ℕ →
      List (Fin (wafpK Nl oversampling Kopt)))
    (s : ℚ → ℚ) (u_sel : Fin (wafpK Nl oversampling Kopt) → ℚ)
    (u_pt : Fin (wafpK Nl oversampling Kopt) → Fin dim → ℚ) :
    T.wafp_sampling indices oversampling sampler Kopt fast_sampler select s u_sel u_pt
      ≠ .error .degenerateDesign := by
  unfold TensorialPolynomials.wafp_sampling
  split
  · split
    · intro h
      rw [Except.error.injEq] at h
      exact absurd h (by decide)
    · intro h
      exact Except.noConfusion h
  · intro h
    rw [Except.error.injEq] at h
    exact absurd h (by decide)

/-- C4 helper: `evalModelRows` never produces DegenerateDesign. -/
theorem evalModelRows_no_degenerateDesign {d : ℕ}
    (model : List ℚ → Option (List ℚ)) (Mp : ℕ) (pPhys : Fin Mp → Fin d → ℚ) :
    evalModelRows model Mp pPhys ≠ .error .degenerateDesign := by
  unfold evalModelRows
  split
  · intro h
    exact absurd (Except.error.inj h) (by decide)
  · split
    · split
      · intro h
        exact Except.noConfusion h
      · intro h
        exact absurd (Except.error.inj h) (by decide)
    · intro h
      exact absurd (Except.error.inj h) (by decide)

/-- C4 helper: the shared solve step of `build_pce_wafp` has no
DegenerateDesign branch either. -/
theorem buildSolveStep_no_degenerateDesign
    (model : List ℚ → Option (List ℚ)) (s : ℚ → ℚ)
    (lstsq : (M N Q : ℕ) → (Fin M → Fin N → ℚ) → (Fin M → Fin Q → ℚ) →
      Option ((Fin N → Fin Q → ℚ) × List ℚ))
    (st : PceState) (idx : NMat) (dist : ProbabilityDistribution)
    (Mp : ℕ) (pPhys pStd : Fin Mp → Fin dist.dim → ℚ) :
    (buildSolveStep model s lstsq st idx dist Mp pPhys pStd).2
      ≠ .error .degenerateDesign := by
  unfold buildSolveStep
  split
  · rename_i e heval
    intro h
    have he : e = PceError.degenerateDesign := Except.error.inj h
    subst he
    exact absurd heval (evalModelRows_no_degenerateDesign model Mp pPhys)
  · split
    · split
      · intro h
        exact absurd (Except.error.inj h) (by decide)
      · intro h
        exact Except.noConfusion h
    · intro h
      exact absurd (Except.error.inj h) (by decide)

/-- C4 helper: `build_pce_wafp` never produces DegenerateDesign. -/
theorem build_no_degenerateDesign (model : List ℚ → Option (List ℚ))
    (samples : Option RMat) (oversampling : ℕ) (sampler : String)
    (Kopt : Option ℕ) (fast_sampler : Bool)
    (select : (Kp Nl : ℕ) → (Fin Kp → Fin Nl → ℚ) → ℕ → List (Fin Kp))
    (s : ℚ → ℚ)
    (lstsq : (M N Q : ℕ) → (Fin M → Fin N → ℚ) → (Fin M → Fin Q → ℚ) →
      Option ((Fin N → Fin Q → ℚ) × List ℚ))
    (u_sel : ℕ → ℚ) (u_pt : ℕ → ℕ → ℚ) (st : PceState) :
    (build_pce_wafp model samples oversampling sampler Kopt fast_sampler select s
        lstsq u_sel u_pt st).2 ≠ .error .degenerateDesign := by
  unfold build_pce_wafp
  repeat' split
  all_goals
    first
      | exact buildSolveStep_no_degenerateDesign _ _ _ _ _ _ _ _ _
      | (intro h; exact absurd (Except.error.inj h) (by decide))
      | (rename_i hwafp
         intro h
         have he := Except.error.inj h
         subst he
         exact absurd hwafp (wafp_sampling_no_degenerateDesign _ _ _ _ _ _ _ _ _ _))

/-- C4 counterexample: with the identically-zero univariate basis every row of
the candidate evaluation matrix V has zero ℓ2 norm, yet `wafp_sampling` does
not fail with DegenerateDesign (nor with anything else): the normalization
divides by zero silently and the call returns normally. -/
theorem wafp_zero_norm_no_error :
    (∀ m : Fin 1, rowNormSq (zeroPolys.eval
        (fun (_ : Fin (wafpK 1 0 (some 1))) (_ : Fin 1) => (0 : ℚ)) witIdx1) m = 0)
    ∧ zeroPolys.wafp_sampling witIdx1 0 "idist" (some 1) true selectFirst1
        (fun v => v) (fun _ => 0) (fun _ _ => 0) ≠ .error .degenerateDesign
    ∧ (zeroPolys.wafp_sampling witIdx1 0 "idist" (some 1) true selectFirst1
        (fun v => v) (fun _ => 0) (fun _ _ => 0)).isOk := by
  refine ⟨?_, ?_, ?_⟩
  · intro m
    have hev : ∀ j : Fin 1, zeroPolys.eval
        (fun (_ : Fin (wafpK 1 0 (some 1))) (_ : Fin 1) => (0 : ℚ)) witIdx1 m j = 0 := by
      intro j
      unfold TensorialPolynomials.eval
      rw [if_pos (show zeroPolys.isotropic = true from rfl), foldl_hadamard_apply]
      simp [onesMat, univEvalMat, zeroPolys, zeroBasis, column, List.finRange]
    show (∑ j, _ ^ 2) = 0
    rw [Fin.sum_univ_one, hev, zero_pow]
    omega
  · exact wafp_sampling_no_degenerateDesign _ _ _ _ _ _ _ _ _ _
  · have hmix := mixture_isSome_of_inrange zeroPolys witIdx1
      (fun (_ : Fin (wafpK 1 0 (some 1))) => (0 : ℚ)) (fun _ _ => 0) true
      (by omega) (by decide) (fun m => by norm_num)
    obtain ⟨x, hx⟩ := Option.isSome_iff_exists.mp hmix
    unfold TensorialPolynomials.wafp_sampling
    rw [if_pos rfl, hx]
    rfl

/-- C4 (amended): row-normalization raises no error at all — neither
`wafp_sampling` nor `build_pce_wafp` can produce the spec's DegenerateDesign
error, the scaling being applied unconditionally even to zero-norm rows (where
numpy divides by zero and propagates non-finite values instead of failing) —
and under the precondition that every row norm is nonzero (with `s` a genuine
square root of the row norms) every scaled row has unit ℓ2 norm. -/
theorem row_normalization_amended {M N : ℕ} (V : Fin M → Fin N → ℚ)
    (s : ℚ → ℚ)
    (hs : ∀ m, (s (rowNormSq V m)) ^ 2 = rowNormSq V m)
    (hnz : ∀ m, rowNormSq V m ≠ 0) :
    (∀ m, rowNormSq (rowNormalize s V) m = 1)
    ∧ (∀ (dim Nl oversampling : ℕ) (T : TensorialPolynomials dim)
        (indices : Fin Nl → Fin dim → ℕ) (sampler : String) (Kopt : Option ℕ)
        (fast_sampler : Bool)
        (select : (Fin (wafpK Nl oversampling Kopt) → Fin Nl → ℚ) → ℕ →
          List (Fin (wafpK Nl oversampling Kopt)))
        (s2 : ℚ → ℚ) (u_sel : Fin (wafpK Nl oversampling Kopt) → ℚ)
        (u_pt : Fin (wafpK Nl oversampling Kopt) → Fin dim → ℚ),
        T.wafp_sampling indices oversampling sampler Kopt fast_sampler select s2
          u_sel u_pt ≠ .error .degenerateDesign)
    ∧ (∀ (model : List ℚ → Option (List ℚ)) (samples : Option RMat)
        (oversampling : ℕ) (sampler : String) (Kopt : Option ℕ)
        (fast_sampler : Bool)
        (select : (Kp Nl : ℕ) → (Fin Kp → Fin Nl → ℚ) → ℕ → List (Fin Kp))
        (s2 : ℚ → ℚ)
        (lstsq : (M2 N2 Q : ℕ) → (Fin M2 → Fin N2 → ℚ) → (Fin M2 → Fin Q → ℚ) →
          Option ((Fin N2 → Fin Q → ℚ) × List ℚ))
        (u_sel : ℕ → ℚ) (u_pt : ℕ → ℕ → ℚ) (st : PceState),
        (build_pce_wafp model samples oversampling sampler Kopt fast_sampler
            select s2 lstsq u_sel u_pt st).2 ≠ .error .degenerateDesign) := by
  refine ⟨?_, ?_, ?_⟩
  · intro m
    have h2 : (s (∑ n, V m n ^ 2)) ^ 2 = ∑ n, V m n ^ 2 := hs m
    have h3 : (∑ n, V m n ^ 2) ≠ 0 := hnz m
    show (∑ n, (V m n * (1 / s (∑ j, V m j ^ 2))) ^ 2) = 1
    simp only [mul_pow]
    rw [← Finset.sum_mul, div_pow, one_pow, h2, mul_one_div, div_self h3]
  · intro dim Nl oversampling T indices sampler Kopt fast_sampler select s2 u_sel u_pt
    exact wafp_sampling_no_degenerateDesign T indices oversampling sampler Kopt
      fast_sampler select s2 u_sel u_pt
  · intro model samples oversampling sampler Kopt fast_sampler select s2 lstsq u_sel u_pt st
    exact build_no_degenerateDesign model samples oversampling sampler Kopt
      fast_sampler select s2 lstsq u_sel u_pt st

/-- C4 helper for the witness: the concrete row (3,4) has squared norm 25. -/
theorem rowVWit_normSq (m : Fin 1) : rowNormSq rowVWit m = 25 := by
  show (∑ n : Fin 2, (rowVWit m n) ^ 2) = 25
  rw [Fin.sum_univ_two]
  norm_num [rowVWit]

/-- C4 witness: row (3,4) with squared norm 25 and an exact square root. -/
theorem row_normalization_amended_witness :
    (∀ m, (sqrtWit (rowNormSq rowVWit m)) ^ 2 = rowNormSq rowVWit m)
    ∧ (∀ m, rowNormSq rowVWit m ≠ 0)
    ∧ (∀ m, rowNormSq (rowNormalize sqrtWit rowVWit) m = 1) :=
  ⟨fun m => by rw [rowVWit_normSq m]; norm_num [sqrtWit],
   fun m => by rw [rowVWit_normSq m]; norm_num,
   (row_normalization_amended rowVWit sqrtWit
      (fun m => by rw [rowVWit_normSq m]; norm_num [sqrtWit])
      (fun m => by rw [rowVWit_normSq m]; norm_num)).1⟩

/-- C5 helper: the solve step either fails leaving the state untouched, or
succeeds having replaced coefficients, samples and outputs together. -/
theorem buildSolveStep_atomic (model : List ℚ → Option (List ℚ)) (s : ℚ → ℚ)
    (lstsq : (M N Q : ℕ) → (Fin M → Fin N → ℚ) → (Fin M → Fin Q → ℚ) →
      Option ((Fin N → Fin Q → ℚ) × List ℚ))
    (st : PceState) (idx : NMat) (dist : ProbabilityDistribution)
    (Mp : ℕ) (pPhys pStd : Fin Mp → Fin dist.dim → ℚ) :
    (∀ e, (buildSolveStep model s lstsq st idx dist Mp pPhys pStd).2 = .error e →
      (buildSolveStep model s lstsq st idx dist Mp pPhys pStd).1 = st)
    ∧ ((buildSolveStep model s lstsq st idx dist Mp pPhys pStd).2.isOk = true →
      ((buildSolveStep model s lstsq st idx dist Mp pPhys pStd).1.coefficients.isSome = true
        ∧ (buildSolveStep model s lstsq st idx dist Mp pPhys pStd).1.p.isSome = true
        ∧ (buildSolveStep model s lstsq st idx dist Mp pPhys pStd).1.output.isSome = true
        ∧ (buildSolveStep model s lstsq st idx dist Mp pPhys pStd).1.indices = st.indices
        ∧ (buildSolveStep model s lstsq st idx dist Mp pPhys pStd).1.distribution
            = st.distribution)) := by
  unfold buildSolveStep
  constructor
  · intro e
    split
    · intro _; rfl
    · split
      · split
        · intro _; rfl
        · intro h; exact Except.noConfusion h
      · intro _; rfl
  · split
    · intro h; exact absurd h (by simp [Except.isOk, Except.toBool])
    · split
      · split
        · intro h; exact absurd h (by simp [Except.isOk, Except.toBool])
        · intro _; exact ⟨rfl, rfl, rfl, rfl, rfl⟩
      · intro h; exact absurd h (by simp [Except.isOk, Except.toBool])

/-- C5: if `build_pce_wafp` fails at any step — unset indices or
distribution, an unrecognized sampler or failed sampling assert, a wrong
sample dimension, a model evaluation failure, an inconsistent output shape, a
dimension assert, or a solver failure — the observable builder state
(coefficients, stored samples p, stored outputs, and also the configuration)
is exactly the input state; and on success coefficients, p and output are all
set (replaced together after the solve), the configuration unchanged. -/
theorem build_pce_wafp_atomic (model : List ℚ → Option (List ℚ))
    (samples : Option RMat) (oversampling : ℕ) (sampler : String)
    (Kopt : Option ℕ) (fast_sampler : Bool)
    (select : (Kp Nl : ℕ) → (Fin Kp → Fin Nl → ℚ) → ℕ → List (Fin Kp))
    (s : ℚ → ℚ)
    (lstsq : (M N Q : ℕ) → (Fin M → Fin N → ℚ) → (Fin M → Fin Q → ℚ) →
      Option ((Fin N → Fin Q → ℚ) × List ℚ))
    (u_sel : ℕ → ℚ) (u_pt : ℕ → ℕ → ℚ) (st : PceState) :
    (∀ e, (build_pce_wafp model samples oversampling sampler Kopt fast_sampler
        select s lstsq u_sel u_pt st).2 = .error e →
      (build_pce_wafp model samples oversampling sampler Kopt fast_sampler
        select s lstsq u_sel u_pt st).1 = st)
    ∧ ((build_pce_wafp model samples oversampling sampler Kopt fast_sampler
        select s lstsq u_sel u_pt st).2.isOk = true →
      ((build_pce_wafp model samples oversampling sampler Kopt fast_sampler
          select s lstsq u_sel u_pt st).1.coefficients.isSome = true
        ∧ (build_pce_wafp model samples oversampling sampler Kopt fast_sampler
            select s lstsq u_sel u_pt st).1.p.isSome = true
        ∧ (build_pce_wafp model samples oversampling sampler Kopt fast_sampler
            select s lstsq u_sel u_pt st).1.output.isSome = true
        ∧ (build_pce_wafp model samples oversampling sampler Kopt fast_sampler
            select s lstsq u_sel u_pt st).1.indices = st.indices
        ∧ (build_pce_wafp model samples oversampling sampler Kopt fast_sampler
            select s lstsq u_sel u_pt st).1.distribution = st.distribution)) := by
  unfold build_pce_wafp
  constructor
  · intro e
    split
    · intro _; rfl
    · split
      · intro _; rfl
      · split
        · split
          · split
            · intro _; rfl
            · exact fun h => (buildSolveStep_atomic _ _ _ _ _ _ _ _ _).1 e h
          · intro _; rfl
        · split
          · split
            · exact fun h => (buildSolveStep_atomic _ _ _ _ _ _ _ _ _).1 e h
            · intro _; rfl
          · intro _; rfl
  · split
    · intro h; exact absurd h (by simp [Except.isOk, Except.toBool])
    · split
      · intro h; exact absurd h (by simp [Except.isOk, Except.toBool])
      · split
        · split
          · split
            · intro h; exact absurd h (by simp [Except.isOk, Except.toBool])
            · exact fun h => (buildSolveStep_atomic _ _ _ _ _ _ _ _ _).2 h
          · intro h; exact absurd h (by simp [Except.isOk, Except.toBool])
        · split
          · split
            · exact fun h => (buildSolveStep_atomic _ _ _ _ _ _ _ _ _).2 h
            · intro h; exact absurd h (by simp [Except.isOk, Except.toBool])
          · intro h; exact absurd h (by simp [Except.isOk, Except.toBool])

/-- C5 witness: a build on a fresh expansion fails (indices unset) with
ValueError and leaves the state untouched. -/
theorem build_pce_wafp_atomic_witness :
    (build_pce_wafp (fun _ => none) none 0 "idist" none true
        (fun _ _ _ _ => []) (fun v => v) (fun _ _ _ _ _ => none)
        (fun _ => 0) (fun _ _ => 0) freshState).2 = .error .valueError
    ∧ (build_pce_wafp (fun _ => none) none 0 "idist" none true
        (fun _ _ _ _ => []) (fun v => v) (fun _ _ _ _ _ => none)
        (fun _ => 0) (fun _ _ => 0) freshState).1 = freshState :=
  ⟨rfl,
   (build_pce_wafp_atomic (fun _ => none) none 0 "idist" none true
      (fun _ _ _ _ => []) (fun v => v) (fun _ _ _ _ _ => none)
      (fun _ => 0) (fun _ _ => 0) freshState).1 .valueError rfl⟩

/-- C6 counterexample: on a freshly constructed expansion (nothing set, so in
particular the coefficients are absent) `global_sensitivity` does not fail
with the NotBuilt guard error: it fails with an AttributeError from
`self.indices.indices()`, no guard having run. -/
theorem global_sensitivity_missing_guard :
    freshState.global_sensitivity (fun v => v) [[0]] = .error .attributeError
    ∧ freshState.global_sensitivity (fun v => v) [[0]] ≠ .error .notBuilt := by
  constructor
  · rfl
  · intro h
    exact absurd (Except.error.inj h) (by decide)

/-- C6 (amended): mean, stdev, pce_eval, quantile and total_sensitivity all
run the assert_pce_built guard first and fail with NotBuilt whenever the
coefficients are absent, whatever the rest of the state holds;
global_sensitivity lacks the guard: with indices set it still fails with
NotBuilt (raised inside its stdev call, after the index masks were already
read), but with indices unset it fails with AttributeError instead. -/
theorem accessors_notBuilt_guard (st : PceState) (s : ℚ → ℚ) (p : RMat)
    (comps : Option (List ℕ)) (q : List ℚ) (M : ℕ)
    (npquantile : RMat → List ℚ → RMat) (dims : Option (List ℕ))
    (dim_lists : List (List ℕ)) (h : st.coefficients = none) :
    st.mean = .error .notBuilt
    ∧ st.stdev s = .error .notBuilt
    ∧ st.pce_eval p comps = .error .notBuilt
    ∧ st.quantile q M npquantile = .error .notBuilt
    ∧ st.total_sensitivity s dims = .error .notBuilt
    ∧ (∀ idx, st.indices = some idx →
        st.global_sensitivity s dim_lists = .error .notBuilt)
    ∧ (st.indices = none →
        st.global_sensitivity s dim_lists = .error .attributeError) := by
  have hassert : assert_pce_built st = .error .notBuilt := by
    unfold assert_pce_built
    rw [h]
  have hstdev : st.stdev s = .error .notBuilt := by
    unfold PceState.stdev
    rw [hassert]
  refine ⟨?_, hstdev, ?_, ?_, ?_, ?_, ?_⟩
  · unfold PceState.mean
    rw [hassert]
  · unfold PceState.pce_eval
    rw [hassert]
  · unfold PceState.quantile
    rw [hassert]
  · unfold PceState.total_sensitivity
    rw [hassert]
  · intro idx hidx
    unfold PceState.global_sensitivity
    rw [hidx, hstdev]
  · intro hnone
    unfold PceState.global_sensitivity
    rw [hnone]

/-- C6 witness: the fresh state has no coefficients, and the guarded accessors
fail with NotBuilt there. -/
theorem accessors_notBuilt_guard_witness :
    freshState.mean = .error .notBuilt
    ∧ freshState.stdev (fun v => v) = .error .notBuilt :=
  ⟨(accessors_notBuilt_guard freshState (fun v => v) ⟨0, 0, fun _ _ => 0⟩ none [] 1
      (fun A _ => A) none [] rfl).1,
   (accessors_notBuilt_guard freshState (fun v => v) ⟨0, 0, fun _ _ => 0⟩ none [] 1
      (fun A _ => A) none [] rfl).2.1⟩

/-- C7 helper: the Boolean row mask computed from `np.all(indices[:,j] > 0)`
and `np.all(indices[:,setdiff(range(dim),j)] == 0)` holds exactly for
multi-indices strictly positive on every dimension of the group and zero on
every dimension outside it. -/
theorem global_mask_eq_iff (idx : NMat) (n : Fin idx.rows) (g : List ℕ)
    (hg : ∀ c ∈ g, c < idx.cols) (ddim : ℕ) (hdim : ddim = idx.cols) :
    (((g.all fun c => decide (0 < idx.natAt n c))
      && (((List.range ddim).filter (fun c => decide (c ∉ g))).all
            fun c => decide (idx.natAt n c = 0))) = true)
    ↔ ((∀ k : Fin idx.cols, k.val ∈ g → 0 < idx.entry n k)
        ∧ (∀ k : Fin idx.cols, k.val ∉ g → idx.entry n k = 0)) := by
  subst hdim
  rw [Bool.and_eq_true, List.all_eq_true, List.all_eq_true]
  constructor
  · rintro ⟨h1, h2⟩
    constructor
    · intro k hk
      have hm := h1 k.val hk
      rw [decide_eq_true_iff] at hm
      unfold NMat.natAt at hm
      rw [dif_pos k.isLt] at hm
      exact hm
    · intro k hk
      have hmem : k.val ∈ (List.range idx.cols).filter (fun c => decide (c ∉ g)) := by
        rw [List.mem_filter, List.mem_range]
        exact ⟨k.isLt, by simpa using hk⟩
      have hm := h2 k.val hmem
      rw [decide_eq_true_iff] at hm
      unfold NMat.natAt at hm
      rw [dif_pos k.isLt] at hm
      exact hm
  · rintro ⟨h1, h2⟩
    constructor
    · intro c hc
      rw [decide_eq_true_iff]
      unfold NMat.natAt
      rw [dif_pos (hg c hc)]
      exact h1 ⟨c, hg c hc⟩ hc
    · intro c hcmem
      rw [List.mem_filter, List.mem_range] at hcmem
      obtain ⟨hclt, hcg⟩ := hcmem
      rw [decide_eq_true_iff]
      unfold NMat.natAt
      rw [dif_pos hclt]
      exact h2 ⟨c, hclt⟩ (by simpa using hcg)

/-- C7: on a built expansion whose shapes agree, `global_sensitivity` returns,
for every dimension group and output component, the sum of squared
coefficients over exactly those multi-indices strictly positive in every
dimension of the group and zero in every dimension outside it, divided by the
total variance stdev()². -/
theorem global_sensitivity_formula (st : PceState) (s : ℚ → ℚ)
    (dim_lists : List (List ℕ)) (idx : NMat) (C : RMat)
    (dist : ProbabilityDistribution)
    (hidx : st.indices = some idx) (hC : st.coefficients = some C)
    (hdist : st.distribution = some dist)
    (hr : C.rows = idx.rows) (hdim : dist.dim = idx.cols)
    (hcols : ∀ g ∈ dim_lists, ∀ c ∈ g, c < idx.cols) :
    ∃ G : Fin dim_lists.length → Fin C.cols → ℚ,
      st.global_sensitivity s dim_lists = .ok ⟨dim_lists.length, C.cols, G⟩
      ∧ ∀ (gj : Fin dim_lists.length) (q : Fin C.cols),
          G gj q =
            (∑ n : Fin idx.rows,
              if (∀ k : Fin idx.cols, k.val ∈ dim_lists.get gj → 0 < idx.entry n k)
                  ∧ (∀ k : Fin idx.cols, k.val ∉ dim_lists.get gj → idx.entry n k = 0)
                then (C.entry (Fin.cast hr.symm n) q) ^ 2 else 0)
            / (s (∑ m : Fin C.rows, if 1 ≤ m.val then (C.entry m q) ^ 2 else 0)) ^ 2 := by
  have hstdev : st.stdev s = .ok ⟨C.cols, fun q =>
      s (∑ m : Fin C.rows, if 1 ≤ m.val then (C.entry m q) ^ 2 else 0)⟩ := by
    unfold PceState.stdev assert_pce_built
    rw [hC]
  unfold PceState.global_sensitivity
  rw [hidx, hstdev, hdist, hC]
  dsimp only
  rw [dif_pos hr, dif_pos rfl, if_pos hcols]
  refine ⟨_, rfl, ?_⟩
  intro gj q
  congr 1
  apply Finset.sum_congr rfl
  intro n _
  apply if_congr ?_ rfl rfl
  exact global_mask_eq_iff idx n (dim_lists.get gj)
    (hcols (dim_lists.get gj) (List.get_mem dim_lists gj.1 gj.2)) dist.dim hdim

/-- C7 witness: a concrete built 2-dimensional expansion with index rows
(0,0) and (1,0), coefficients (3,2), and the single group [0]. -/
theorem global_sensitivity_formula_witness :
    ∃ G : Fin 1 → Fin 1 → ℚ,
      sensState.global_sensitivity (fun v => v) [[0]] = .ok ⟨1, 1, G⟩ :=
  (global_sensitivity_formula sensState (fun v => v) [[0]] sensIdx sensC sensDist
      rfl rfl rfl rfl rfl (by decide)).elim
    (fun G hG => ⟨G, hG.1⟩)

/-- C8: the stored output of a successful build equals the raw model
evaluations: scaling each output row by `norms = 1/sqrt(row norm of V)` for
the solve and un-scaling by `1/norms` before storing (pce.py lines 76 and 85,
the exact composition `storedOutput` that `build_pce_wafp` writes into
`self.output`) is an exact round trip in exact arithmetic whenever the square
roots of the row norms are nonzero; the scaled matrices stay internal to the
solve. -/
theorem stored_output_roundtrip {M N Q : ℕ} (s : ℚ → ℚ)
    (V : Fin M → Fin N → ℚ) (O : Fin M → Fin Q → ℚ)
    (hs : ∀ m, s (rowNormSq V m) ≠ 0) :
    storedOutput s V O = O := by
  funext m q
  unfold storedOutput scaleRows rowNorms
  have h := hs m
  field_simp

/-- C8 witness: 1×1 matrices with unit row norm. -/
theorem stored_output_roundtrip_witness :
    (∀ m : Fin 1, (fun v => v : ℚ → ℚ) (rowNormSq onesV1 m) ≠ 0)
    ∧ storedOutput (fun v => v) onesV1 fivesO1 = fivesO1 := by
  have haux : ∀ m : Fin 1, (fun v => v : ℚ → ℚ) (rowNormSq onesV1 m) ≠ 0 := by
    intro m
    show (∑ n : Fin 1, (onesV1 m n) ^ 2) ≠ 0
    rw [Fin.sum_univ_one]
    norm_num [onesV1]
  exact ⟨haux, stored_output_roundtrip (fun v => v) onesV1 fivesO1 haux⟩

/-- C2 (code bug): `pce_eval` standardizes points through the transform chain
in the opposite order from `build_pce_wafp` — build applies
transform_standard_dist_to_poly after transform_to_standard (pce.py 58-59,
consistently inverse to the chain of lines 52-53), while pce_eval applies
transform_to_standard after transform_standard_dist_to_poly (lines 123-124).
For the distribution whose transform_to_standard adds 1 and whose
transform_standard_dist_to_poly doubles, the physical point 0 is standardized
to 2 by build but pce_eval evaluates the basis at 1. -/
theorem transform_chain_divergence :
    chainDist.buildStandardize (fun _ => 0) ⟨0, by decide⟩ = 2
    ∧ chainDist.evalStandardize (fun _ => 0) ⟨0, by decide⟩ = 1
    ∧ chainDist.evalStandardize (fun _ => 0) ≠ chainDist.buildStandardize (fun _ => 0) := by
  refine ⟨?_, ?_, ?_⟩
  · show (2 : ℚ) * ((0 : ℚ) + 1) = 2
    norm_num
  · show (2 : ℚ) * (0 : ℚ) + 1 = 1
    norm_num
  · intro h
    have h0 := congrFun h ⟨0, by decide⟩
    have h1 : (1 : ℚ) = 2 := by
      calc (1 : ℚ) = chainDist.evalStandardize (fun _ => 0) ⟨0, by decide⟩ := by
            show (1 : ℚ) = 2 * 0 + 1
            norm_num
        _ = chainDist.buildStandardize (fun _ => 0) ⟨0, by decide⟩ := h0
        _ = 2 := by
            show (2 : ℚ) * (0 + 1) = 2
            norm_num
    norm_num at h1

/-- C10 helper: with a positive batch size, the while loop of `quantile`
completes within Q iterations of fuel and its batches partition the component
range: every output component is covered by exactly one `(counter, end_ind)`
interval, in order. -/
theorem batchIntervals_complete (Q bs : ℕ) (hbs : 1 ≤ bs) :
    ∀ (fuel counter : ℕ), Q - counter ≤ fuel →
      ∃ l, batchIntervals Q bs fuel counter = some l
        ∧ l.flatMap (fun b => List.range' b.1 (b.2 - b.1)) = List.range' counter (Q - counter) := by
  intro fuel
  induction fuel with
  | zero =>
    intro counter hc
    have hQ : Q ≤ counter := by omega
    refine ⟨[], ?_, ?_⟩
    · unfold batchIntervals
      rw [if_pos hQ]
    · have h0 : Q - counter = 0 := by omega
      rw [h0]
      simp
  | succ fuel ih =>
    intro counter hc
    by_cases hQ : Q ≤ counter
    · refine ⟨[], ?_, ?_⟩
      · unfold batchIntervals
        rw [if_pos hQ]
      · have h0 : Q - counter = 0 := by omega
        rw [h0]
        simp
    · have hnext : Q - min Q (counter + bs) ≤ fuel := by omega
      obtain ⟨rest, hrest, hbind⟩ := ih (min Q (counter + bs)) hnext
      refine ⟨(counter, min Q (counter + bs)) :: rest, ?_, ?_⟩
      · unfold batchIntervals
        rw [if_neg hQ, hrest]
      · rw [List.flatMap_cons, hbind]
        have h1 : counter ≤ min Q (counter + bs) := by omega
        have happ := List.range'_append_1 counter
          (min Q (counter + bs) - counter) (Q - min Q (counter + bs))
        rw [Nat.add_sub_cancel' h1] at happ
        rw [happ]
        congr 1
        omega

/-- C10: for every M ≥ 1, the batch size floor(max(10^6, M, dim)/M) used by
`quantile` is at least 1, the batching loop finishes within Q units of fuel
with batches that cover every output component exactly once (their
concatenation is precisely range Q), and any successful result has shape
len(q) × Q, with Q the number of coefficient columns. -/
theorem quantile_batching (st : PceState) (q : List ℚ) (M : ℕ)
    (npquantile : RMat → List ℚ → RMat) (C : RMat)
    (dist : ProbabilityDistribution)
    (hM : 1 ≤ M) (hC : st.coefficients = some C)
    (hdist : st.distribution = some dist) :
    1 ≤ pce_batch_size M dist.dim
    ∧ (∃ batches, batchIntervals C.cols (pce_batch_size M dist.dim) C.cols 0
          = some batches
        ∧ batches.flatMap (fun b => List.range' b.1 (b.2 - b.1)) = List.range C.cols)
    ∧ (∀ A, st.quantile q M npquantile = .ok A →
        A.rows = q.length ∧ A.cols = C.cols) := by
  have hbs : 1 ≤ pce_batch_size M dist.dim := by
    unfold pce_batch_size
    rw [Nat.one_le_div_iff (by omega)]
    exact le_trans (le_max_right 1000000 M) (le_max_left _ _)
  refine ⟨hbs, ?_, ?_⟩
  · obtain ⟨l, hl, hbind⟩ := batchIntervals_complete C.cols
      (pce_batch_size M dist.dim) hbs C.cols 0 (by omega)
    refine ⟨l, hl, ?_⟩
    rw [hbind, Nat.sub_zero, List.range_eq_range']
  · intro A hA
    have hassert : assert_pce_built st = .ok () := by
      unfold assert_pce_built
      rw [hC]
    unfold PceState.quantile at hA
    rw [hassert] at hA
    dsimp only at hA
    rw [hdist] at hA
    dsimp only at hA
    rw [if_neg (show ¬ M = 0 by omega), hC] at hA
    dsimp only at hA
    split at hA
    · exact Except.noConfusion hA
    · split at hA
      · exact Except.noConfusion hA
      · cases hA
        exact ⟨rfl, rfl⟩

/-- C10 witness: the concrete built expansion `sensState` with M = 1. -/
theorem quantile_batching_witness :
    1 ≤ pce_batch_size 1 sensDist.dim
    ∧ ∃ batches, batchIntervals sensC.cols (pce_batch_size 1 sensDist.dim)
          sensC.cols 0 = some batches
        ∧ batches.flatMap (fun b => List.range' b.1 (b.2 - b.1))
            = List.range sensC.cols :=
  ⟨(quantile_batching sensState [] 1 (fun A _ => A) sensC sensDist
      (Nat.le_refl 1) rfl rfl).1,
   (quantile_batching sensState [] 1 (fun A _ => A) sensC sensDist
      (Nat.le_refl 1) rfl rfl).2.1⟩

/-- C9 witness: three mixture components, one sample, draw u = 0: sampling
succeeds and the u = 0 edge case selects the last row. -/
theorem mixture_sampling_index_safe_witness :
    (witPolys.idist_mixture_sampling 1 mixLam3 true (fun _ => 0) (fun _ _ => 0)).isSome
    ∧ pythonRow mixLam3 (mixtureRowIndex 3 0) = some (mixLam3 ⟨2, by omega⟩) := by
  obtain ⟨h1, _, _, h4⟩ := mixture_sampling_index_safe witPolys 1 mixLam3 true
    (fun _ => 0) (fun _ _ => 0) (by omega) (by omega) (fun m => by norm_num)
  exact ⟨h1, h4⟩

end UncertainSCI
